import Mathlib

set_option maxRecDepth 10000

/-!
A shallow embedding of the smaps parser from `proc_smaps.go` (package
procfs), together with the older variant of the field-block parser found in
the second source file of the repository.  Text is modelled as `List Char`;
the buffered reader becomes explicit state passing of the remaining
character stream; Go's `uint64` arithmetic is `Nat` with explicit
`% 2^64` where overflow matters; fallible code returns `Except`.
Go runtime panics (out-of-range indexing) are modelled by the dedicated
error value `PErr.indexOOR` so that reachability of panics can be stated.
-/

namespace Procfs

/-- `bufio.Reader.ReadString('\n')`: returns the characters up to and
including the first newline together with the remaining stream, or `none`
when the stream is exhausted before a newline is found (Go returns the
partial data together with `io.EOF`; every caller in the source discards
the data when the error is non-nil, so the partial data is not modelled). -/
def readString : List Char → Option (List Char × List Char)
  | [] => none
  | c :: rest =>
    if c = '\n' then some ([c], rest)
    else
      match readString rest with
      | none => none
      | some (l, r) => some (c :: l, r)

/-- `strings.TrimSuffix(line, "\n")`: drop one trailing newline if present. -/
def trimNL (l : List Char) : List Char :=
  if l.getLast? = some '\n' then l.dropLast else l

/-- Helper for `splitOn`: first field and remaining fields. -/
def splitOnAux (sep : Char) : List Char → List Char × List (List Char)
  | [] => ([], [])
  | c :: rest =>
    let r := splitOnAux sep rest
    if c = sep then ([], r.1 :: r.2) else (c :: r.1, r.2)

/-- `strings.Split(s, sep)` for a one-character separator.  Always returns
at least one (possibly empty) field, like the Go function. -/
def splitOn (sep : Char) (s : List Char) : List (List Char) :=
  (splitOnAux sep s).1 :: (splitOnAux sep s).2

/-- `strings.HasPrefix(s, pre)` (arguments: pattern, then string). -/
def hasPre : List Char → List Char → Bool
  | [], _ => true
  | _ :: _, [] => false
  | p :: ps, c :: cs => p == c && hasPre ps cs

/-- Strip a literal from the front of a stream (used for `fmt.Fscanf`
literal matching); `none` when the literal does not match. -/
def stripPre : List Char → List Char → Option (List Char)
  | [], s => some s
  | _ :: _, [] => none
  | p :: ps, c :: cs => if p = c then stripPre ps cs else none

/-- Value of a hexadecimal digit, or `none`. -/
def hexDigitVal (c : Char) : Option Nat :=
  if '0' ≤ c ∧ c ≤ '9' then some (c.toNat - '0'.toNat)
  else if 'a' ≤ c ∧ c ≤ 'f' then some (c.toNat - 'a'.toNat + 10)
  else if 'A' ≤ c ∧ c ≤ 'F' then some (c.toNat - 'A'.toNat + 10)
  else none

/-- Value of a decimal digit, or `none`. -/
def decDigitVal (c : Char) : Option Nat :=
  if '0' ≤ c ∧ c ≤ '9' then some (c.toNat - '0'.toNat) else none

/-- Accumulating digit loop shared by the two `strconv.ParseUint` bases. -/
def parseUintLoop (dv : Char → Option Nat) (base : Nat) :
    List Char → Nat → Option Nat
  | [], acc => some acc
  | c :: rest, acc =>
    match dv c with
    | none => none
    | some d => parseUintLoop dv base rest (acc * base + d)

/-- `strconv.ParseUint(s, base, 64)`: digits of the given base only, no
sign and no prefix (Go allows those only for base 0); error on the empty
string, on a non-digit character, and on overflow past `2^64 - 1`. -/
def parseUintBase (dv : Char → Option Nat) (base : Nat) (s : List Char) :
    Option Nat :=
  if s = [] then none
  else
    match parseUintLoop dv base s 0 with
    | none => none
    | some n => if n < 2 ^ 64 then some n else none

/-- `strconv.ParseUint(s, 16, 64)`. -/
def parseHex (s : List Char) : Option Nat := parseUintBase hexDigitVal 16 s

/-- `strconv.ParseUint(s, 10, 64)`. -/
def parseDec (s : List Char) : Option Nat := parseUintBase decDigitVal 10 s

/-- One `%02x` conversion of `fmt.Sscanf`: read one or two hexadecimal
digits (maximal munch capped at width 2) and return the value and rest. -/
def scanHex2 : List Char → Option (Nat × List Char)
  | [] => none
  | c :: rest =>
    match hexDigitVal c with
    | none => none
    | some d1 =>
      match rest with
      | c2 :: rest2 =>
        match hexDigitVal c2 with
        | some d2 => some (d1 * 16 + d2, rest2)
        | none => some (d1, rest)
      | [] => some (d1, [])

/-- `fmt.Sscanf(parts[3], "%02x:%02x", &maj, &min)`: two 2-hex-digit
bytes separated by `:`; input after the second verb is ignored, exactly as
`Sscanf` ignores unconsumed input once all verbs have matched. -/
def scanDevs (s : List Char) : Option (Nat × Nat) :=
  match scanHex2 s with
  | none => none
  | some (a, r1) =>
    match r1 with
    | ':' :: r2 =>
      match scanHex2 r2 with
      | none => none
      | some (b, _) => some (a, b)
    | _ => none

/-- The `MemStat` record of `proc_smaps.go`.  `uint64` fields become `Nat`
(the parser only ever stores values `< 2^64`); the `VMFlags`
`map[string]bool` becomes the list of inserted keys, read as a set via
membership. The zero value of every field matches Go's zero value. -/
structure MemStat where
  VMStart : Nat := 0
  VMEnd : Nat := 0
  VMRead : Bool := false
  VMWrite : Bool := false
  VMExec : Bool := false
  VMMayShare : Bool := false
  PageOffset : Nat := 0
  MajorDev : Nat := 0
  MinorDev : Nat := 0
  Inode : Nat := 0
  FileName : List Char := []
  Size : Nat := 0
  RSS : Nat := 0
  PSS : Nat := 0
  SharedClean : Nat := 0
  SharedDirty : Nat := 0
  PrivateClean : Nat := 0
  PrivateDirty : Nat := 0
  Referenced : Nat := 0
  Anonymous : Nat := 0
  AnonymousTHP : Nat := 0
  Swap : Nat := 0
  KernelPageSize : Nat := 0
  MMUPageSize : Nat := 0
  Locked : Nat := 0
  Nonlinear : Nat := 0
  VMFlags : List (List Char) := []
deriving DecidableEq, Repr

/-- Errors of the embedded parser.  Each constructor corresponds to one
`errors.New(fmt.Sprintf(...))` site of the source and carries exactly the
values that the source interpolates into the message; `eof` is the
sentinel `io.EOF` returned verbatim by `ReadString`; `indexOOR` models a
Go runtime index-out-of-range panic; `outOfFuel` is an artifact of the
fuel-based embedding of the read loops and is proved unreachable for the
fuel the top-level functions supply. -/
inductive PErr where
  | eof
  | indexOOR
  | outOfFuel
  | vmStartEnd (p0 : List Char)
  | vmStart (h : List Char)
  | pageOffset (p2 : List Char)
  | devnos (p3 : List Char)
  | inode (p4 : List Char)
  | illegalRead (c : Char)
  | illegalWrite (c : Char)
  | illegalExec (c : Char)
  | illegalShare (c : Char)
  | readLine (prev : List Char)
  | parseIntVal (digits line prev : List Char)
  | vmFlagsLine (line : List Char)
  | vmFlagsWrap (e : PErr) (line prev : List Char)
  | unknownLine (line prev : List Char)
  | neverGot (name last : List Char)
  | nonlinearErr
  | fillWrap (fileName : List Char) (e : PErr)
deriving DecidableEq, Repr

/-- The string arguments interpolated into the error's message text, in
order of appearance in the corresponding `fmt.Sprintf` format. -/
def errStrings : PErr → List (List Char)
  | .eof | .indexOOR | .outOfFuel | .nonlinearErr => []
  | .vmStartEnd p0 => [p0]
  | .vmStart h => [h]
  | .pageOffset p2 => [p2]
  | .devnos p3 => [p3]
  | .inode p4 => [p4]
  | .illegalRead _ | .illegalWrite _ | .illegalExec _ | .illegalShare _ => []
  | .readLine prev => [prev]
  | .parseIntVal digits line prev => [digits, line, prev]
  | .vmFlagsLine line => [line]
  | .vmFlagsWrap e line prev => errStrings e ++ [line, prev]
  | .unknownLine line prev => [line, prev]
  | .neverGot name last => [name, last]
  | .fillWrap fileName e => fileName :: errStrings e

/-- The "Convert flag symbology" block of `fillMemStatVM` (both source
variants are identical): positional decode of the 4-character permission
field into `(VMRead, VMWrite, VMExec, VMMayShare)`.  Character accesses
`flags[0]`..`flags[3]` are unguarded in the source; a too-short string is
the `indexOOR` panic. -/
def decodePerm (flags : List Char) : Except PErr (Bool × Bool × Bool × Bool) :=
  match flags.get? 0 with
  | none => .error .indexOOR
  | some c0 =>
    if c0 = 'r' ∨ c0 = '-' then
      match flags.get? 1 with
      | none => .error .indexOOR
      | some c1 =>
        if c1 = 'w' ∨ c1 = '-' then
          match flags.get? 2 with
          | none => .error .indexOOR
          | some c2 =>
            if c2 = 'x' ∨ c2 = '-' then
              match flags.get? 3 with
              | none => .error .indexOOR
              | some c3 =>
                if c3 = 's' ∨ c3 = 'p' then
                  .ok (c0 == 'r', c1 == 'w', c2 == 'x', c3 == 's')
                else .error (.illegalShare c3)
            else .error (.illegalExec c2)
        else .error (.illegalWrite c1)
    else .error (.illegalRead c0)

/-- `fillMemStatVM` (identical in both source variants): parse one header
line of a mapping record, starting from a fresh zero `MemStat` (its only
caller, `parseMemStat`, always passes a freshly allocated record).
Returns the populated record and the remaining stream.  Field accesses
`parts[1]`..`parts[4]` are unguarded in the source and become `indexOOR`;
the error on the first `ReadString` is returned verbatim (`eof`). -/
def fillMemStatVM (s : List Char) : Except PErr (MemStat × List Char) :=
  match readString s with
  | none => .error .eof
  | some (line0, rest) =>
    let line := trimNL line0
    let parts := splitOn ' ' line
    match parts.get? 0 with
    | none => .error .indexOOR
    | some p0 =>
      let vmParts := splitOn '-' p0
      if vmParts.length ≠ 2 then .error (.vmStartEnd p0)
      else
        match vmParts.get? 0, vmParts.get? 1 with
        | some v0, some v1 =>
          match parseHex v0 with
          | none => .error (.vmStart v0)
          | some a =>
            match parseHex v1 with
            | none => .error (.vmStartEnd p0)
            | some b =>
              match parts.get? 1 with
              | none => .error .indexOOR
              | some flags =>
                match parts.get? 2 with
                | none => .error .indexOOR
                | some p2 =>
                  match parseHex p2 with
                  | none => .error (.pageOffset p2)
                  | some off =>
                    match parts.get? 3 with
                    | none => .error .indexOOR
                    | some p3 =>
                      match scanDevs p3 with
                      | none => .error (.devnos p3)
                      | some (maj, minr) =>
                        match parts.get? 4 with
                        | none => .error .indexOOR
                        | some p4 =>
                          match parseDec p4 with
                          | none => .error (.inode p4)
                          | some ino =>
                            let fn :=
                              if parts.length > 5 then
                                (parts.get? (parts.length - 1)).getD []
                              else []
                            match decodePerm flags with
                            | .error e => .error e
                            | .ok (r, w, x, sh) =>
                              .ok ({ VMStart := a, VMEnd := b,
                                     VMRead := r, VMWrite := w,
                                     VMExec := x, VMMayShare := sh,
                                     PageOffset := off,
                                     MajorDev := maj, MinorDev := minr,
                                     Inode := ino, FileName := fn }, rest)
        | _, _ => .error .indexOOR

/-- The literal token `"VmFlags:"`. -/
def vmFlagsTok : List Char := "VmFlags:".data

/-- The entry table built by `mkEntryMap` in `proc_smaps.go`: token name
paired with its `optional` flag, in declaration order.  (The Go code uses
a `map`; the model fixes the declaration order wherever the Go map
iteration order is unspecified.) -/
def entryTable : List (List Char × Bool) :=
  [("Size".data, false), ("Rss".data, true), ("Pss".data, false),
   ("Shared_Clean".data, true), ("Shared_Dirty".data, true),
   ("Private_Clean".data, true), ("Private_Dirty".data, false),
   ("Referenced".data, false), ("Anonymous".data, true),
   ("AnonHugePages".data, false), ("Swap".data, false),
   ("KernelPageSize".data, false), ("MMUPageSize".data, true),
   ("Locked".data, false), ("Linear".data, true)]

/-- The recognized token names (the key set of `mkEntryMap`). -/
def entryNames : List (List Char) := entryTable.map Prod.fst

/-- `*en.ptr = ui`: store a parsed value into the field the entry map
associates with the token.  Unrecognized tokens leave the record unchanged
(that branch is never taken by the parser, which looks the token up before
storing). -/
def setEntry (tok : List Char) (v : Nat) (ms : MemStat) : MemStat :=
  if tok = "Size".data then { ms with Size := v }
  else if tok = "Rss".data then { ms with RSS := v }
  else if tok = "Pss".data then { ms with PSS := v }
  else if tok = "Shared_Clean".data then { ms with SharedClean := v }
  else if tok = "Shared_Dirty".data then { ms with SharedDirty := v }
  else if tok = "Private_Clean".data then { ms with PrivateClean := v }
  else if tok = "Private_Dirty".data then { ms with PrivateDirty := v }
  else if tok = "Referenced".data then { ms with Referenced := v }
  else if tok = "Anonymous".data then { ms with Anonymous := v }
  else if tok = "AnonHugePages".data then { ms with AnonymousTHP := v }
  else if tok = "Swap".data then { ms with Swap := v }
  else if tok = "KernelPageSize".data then { ms with KernelPageSize := v }
  else if tok = "MMUPageSize".data then { ms with MMUPageSize := v }
  else if tok = "Locked".data then { ms with Locked := v }
  else if tok = "Linear".data then { ms with Nonlinear := v }
  else ms

/-- Character class `[[:word:]]` of the source regexp (`[0-9A-Za-z_]`). -/
def isWordChar (c : Char) : Bool := c.isAlphanum || c == '_'

/-- Character class `[[:space:]]` of the source regexp. -/
def isSpaceChar (c : Char) : Bool :=
  c == ' ' || c == '\t' || c == '\n' || c == '\x0b' || c == '\x0c' || c == '\r'

/-- The anchored regexp `eRE` of `proc_smaps.go`:
`^([[:word:]]+):[[:space:]]*([[:digit:]]+) kB\n$`, returning the two
capture groups on a match.  Maximal-munch scanning is equivalent to the
regexp here because no class contains the character that must follow it. -/
def matchEntryLine (line : List Char) : Option (List Char × List Char) :=
  let tok := line.takeWhile isWordChar
  let r1 := line.dropWhile isWordChar
  if tok = [] then none
  else
    match r1 with
    | ':' :: r2 =>
      let r3 := r2.dropWhile isSpaceChar
      let ds := r3.takeWhile Char.isDigit
      let r4 := r3.dropWhile Char.isDigit
      if ds = [] then none
      else if r4 = [' ', 'k', 'B', '\n'] then some (tok, ds) else none
    | _ => none

/-- `parseVmFlags` of `proc_smaps.go`: split the line on single spaces,
require the first field to be `VmFlags:`, and insert every subsequent
field (verbatim, as split) into the `VMFlags` set. -/
def parseVmFlags (ms : MemStat) (line : List Char) : Except PErr MemStat :=
  match splitOn ' ' line with
  | f0 :: rest =>
    if f0 = vmFlagsTok then .ok { ms with VMFlags := ms.VMFlags ++ rest }
    else .error (.vmFlagsLine line)
  | [] => .error .indexOOR

/-- First required (`!optional`) entry of the table whose token was never
seen, if any — the post-loop check of `fillMemStat`. -/
def findMissing : List (List Char × Bool) → List (List Char) → Option (List Char)
  | [], _ => none
  | e :: t, seen =>
    if ¬e.2 ∧ e.1 ∉ seen then some e.1 else findMissing t seen

/-- The read loop of `fillMemStat` in `proc_smaps.go` (the current,
order-independent variant).  State: record under construction, list of
seen tokens, previous line (the package-level `prevLine` variable,
threaded explicitly), remaining stream.  The structural `fuel` argument
only bounds recursion; `s.length` always suffices (each iteration consumes
at least the newline).  On normal exit (the `VmFlags:` terminator) returns
the record, the seen tokens, the final `prevLine`, and the rest of the
stream. -/
def fillMemStatLoopF :
    Nat → MemStat → List (List Char) → List Char → List Char →
    Except PErr (MemStat × List (List Char) × List Char × List Char)
  | 0, _, _, _, _ => .error .outOfFuel
  | fuel + 1, ms, seen, prev, s =>
    match readString s with
    | none => .error (.readLine prev)
    | some (line, rest) =>
      match matchEntryLine line with
      | some (tok, digits) =>
        if tok ∈ entryNames then
          match parseDec digits with
          | none => .error (.parseIntVal digits line prev)
          | some v => fillMemStatLoopF fuel (setEntry tok v ms) (tok :: seen) line rest
        else fillMemStatLoopF fuel ms seen line rest
      | none =>
        if hasPre vmFlagsTok line then
          match parseVmFlags ms line with
          | .error e => .error (.vmFlagsWrap e line prev)
          | .ok ms' => .ok (ms', seen, line, rest)
        else .error (.unknownLine line prev)

/-- `fillMemStat` of `proc_smaps.go`: run the read loop, then fail with
the first (in table order) required entry that was never seen.  Returns
the updated record, the final `prevLine`, and the remaining stream. -/
def fillMemStat (ms : MemStat) (prev s : List Char) :
    Except PErr (MemStat × List Char × List Char) :=
  match fillMemStatLoopF (s.length + 1) ms [] prev s with
  | .error e => .error e
  | .ok (ms', seen, prev', rest) =>
    match findMissing entryTable seen with
    | some nm => .error (.neverGot nm prev')
    | none => .ok (ms', prev', rest)

/-- `parseMemStat` of `proc_smaps.go`: header line, then field block; a
field-block error is wrapped with the record's file name
(`"Error filling mem stats: %q: %v"`), while header-line errors — in
particular the verbatim `io.EOF` — propagate unwrapped. -/
def parseMemStat (s prev : List Char) :
    Except PErr (MemStat × List Char × List Char) :=
  match fillMemStatVM s with
  | .error e => .error e
  | .ok (ms, s1) =>
    match fillMemStat ms prev s1 with
    | .error e => .error (.fillWrap ms.FileName e)
    | .ok (ms', prev', s2) => .ok (ms', s2, prev')

/-- The record loop of `NewSmaps`: accumulate records until
`parseMemStat` fails; the sentinel `eof` ends the loop successfully with
the accumulated records, any other error is returned.  Fuel-bounded
structural recursion; `s.length` always suffices. -/
def parseLoopF :
    Nat → List Char → List Char → List MemStat → Except PErr (List MemStat)
  | 0, _, _, _ => .error .outOfFuel
  | fuel + 1, s, prev, acc =>
    match parseMemStat s prev with
    | .error e => if e = .eof then .ok acc else .error e
    | .ok (m, s', prev') => parseLoopF fuel s' prev' (acc ++ [m])

/-- Initial value of the package-level `prevLine` variable. -/
def bofLine : List Char := "<BOF>".data

/-- The parse of a whole byte stream, i.e. the loop of `NewSmaps` applied
to the in-memory buffer (`prevLine` starts at its package initialization
value). -/
def parseAll (s : List Char) : Except PErr (List MemStat) :=
  parseLoopF (s.length + 1) s bofLine []

/-- The pair `NewSmaps` returns: the record sequence of the zero-value
`ProcSmaps` (empty) alongside the error.  On any non-`eof` error the Go
code returns `ProcSmaps{}`, discarding the accumulated records. -/
def newSmapsModel (s : List Char) : List MemStat × Option PErr :=
  match parseAll s with
  | .ok l => (l, none)
  | .error e => ([], some e)

/-- The records of a successful parse (`none` when the parse failed). -/
def okRecords : Except PErr (List MemStat) → Option (List MemStat)
  | .ok l => some l
  | .error _ => none

/-- `fmt.Fscanf(r, "Nonlinear:      %8d kB\n", &ms.Nonlinear)` from the
older source variant: literal `Nonlinear:`, any number of spaces, at most
8 decimal digits, spaces, literal `kB`, newline; returns the value and the
remaining stream. -/
def scanNonlinear (s : List Char) : Option (Nat × List Char) :=
  match stripPre "Nonlinear:".data s with
  | none => none
  | some s1 =>
    let s2 := s1.dropWhile (· == ' ')
    let ds := (s2.takeWhile Char.isDigit).take 8
    if ds = [] then none
    else
      let s3 := s2.drop ds.length
      let s4 := s3.dropWhile (· == ' ')
      match stripPre "kB".data s4 with
      | none => none
      | some s5 =>
        match s5 with
        | '\n' :: s6 =>
          match parseUintLoop decDigitVal 10 ds 0 with
          | some v => some (v, s6)
          | none => none
        | _ => none

/-- The terminating phase of `fillMemStat` in the older source variant
(the file whose name is unknown, lines 162–179): read the `VmFlags:`
line, insert its fields into the flag set, and — when the decoded set
contains the exact key `nl` — consume and parse an immediately following
`Nonlinear: N kB` line, failing when it is absent or malformed. -/
def fillMemStatOldTail (ms : MemStat) (s : List Char) :
    Except PErr (MemStat × List Char) :=
  match readString s with
  | none => .error .eof
  | some (line, rest) =>
    match splitOn ' ' line with
    | f0 :: fr =>
      if f0 = vmFlagsTok then
        let ms' := { ms with VMFlags := ms.VMFlags ++ fr }
        if "nl".data ∈ ms'.VMFlags then
          match scanNonlinear rest with
          | none => .error .nonlinearErr
          | some (v, rest2) => .ok ({ ms' with Nonlinear := v }, rest2)
        else .ok (ms', rest)
      else .error (.vmFlagsLine line)
    | [] => .error .indexOOR

/-- One step of `MemStatsSummary`'s accumulation: `uint64` addition of
every summed accounting field (wrapping modulo `2^64`, as in Go). -/
def sumStep (t ms : MemStat) : MemStat :=
  { t with
    Size := (t.Size + ms.Size) % 2 ^ 64,
    RSS := (t.RSS + ms.RSS) % 2 ^ 64,
    PSS := (t.PSS + ms.PSS) % 2 ^ 64,
    SharedClean := (t.SharedClean + ms.SharedClean) % 2 ^ 64,
    SharedDirty := (t.SharedDirty + ms.SharedDirty) % 2 ^ 64,
    PrivateClean := (t.PrivateClean + ms.PrivateClean) % 2 ^ 64,
    PrivateDirty := (t.PrivateDirty + ms.PrivateDirty) % 2 ^ 64,
    Referenced := (t.Referenced + ms.Referenced) % 2 ^ 64,
    Anonymous := (t.Anonymous + ms.Anonymous) % 2 ^ 64,
    AnonymousTHP := (t.AnonymousTHP + ms.AnonymousTHP) % 2 ^ 64,
    Swap := (t.Swap + ms.Swap) % 2 ^ 64,
    Locked := (t.Locked + ms.Locked) % 2 ^ 64,
    Nonlinear := (t.Nonlinear + ms.Nonlinear) % 2 ^ 64 }

/-- `MemStatsSummary`: start from a record holding only the first
record's `KernelPageSize`/`MMUPageSize` and add every record's summed
fields.  Go indexes `ps.MemStats[0]` unguarded, so the empty sequence —
a runtime panic in Go — is `none`. -/
def memStatsSummary : List MemStat → Option MemStat
  | [] => none
  | r0 :: rest =>
    some ((r0 :: rest).foldl sumStep
      { KernelPageSize := r0.KernelPageSize, MMUPageSize := r0.MMUPageSize })

instance {ε α : Type} [DecidableEq ε] [DecidableEq α] :
    DecidableEq (Except ε α) := fun a b =>
  match a, b with
  | .error e, .error e' =>
    if h : e = e' then isTrue (by rw [h]) else isFalse (by simp [h])
  | .error _, .ok _ => isFalse (by simp)
  | .ok _, .error _ => isFalse (by simp)
  | .ok a, .ok b =>
    if h : a = b then isTrue (by rw [h]) else isFalse (by simp [h])

/-- `ParsesTo s p l s' p'`: starting from stream `s` and previous-line
state `p`, the record loop parses exactly the records `l` and leaves
stream `s'` and previous-line state `p'`. -/
inductive ParsesTo : List Char → List Char → List MemStat → List Char → List Char → Prop where
  | refl (s p : List Char) : ParsesTo s p [] s p
  | step {s p : List Char} {m : MemStat} {s₁ p₁ : List Char} {l : List MemStat}
      {s₂ p₂ : List Char} :
      parseMemStat s p = .ok (m, s₁, p₁) → ParsesTo s₁ p₁ l s₂ p₂ →
      ParsesTo s p (m :: l) s₂ p₂

/-- The record a successful `fillMemStat` produced (`none` on error). -/
def fillOk : Except PErr (MemStat × List Char × List Char) → Option MemStat
  | .ok (m, _, _) => some m
  | .error _ => none

/-- All summed accounting fields below `2^64` (holds of every record the
parser builds and of every intermediate accumulator of the summary). -/
def SummedBounded (t : MemStat) : Prop :=
  t.Size < 2 ^ 64 ∧ t.RSS < 2 ^ 64 ∧ t.PSS < 2 ^ 64 ∧
  t.SharedClean < 2 ^ 64 ∧ t.SharedDirty < 2 ^ 64 ∧ t.PrivateClean < 2 ^ 64 ∧
  t.PrivateDirty < 2 ^ 64 ∧ t.Referenced < 2 ^ 64 ∧ t.Anonymous < 2 ^ 64 ∧
  t.AnonymousTHP < 2 ^ 64 ∧ t.Swap < 2 ^ 64 ∧ t.Locked < 2 ^ 64 ∧
  t.Nonlinear < 2 ^ 64

/-! Concrete fixture streams used by witnesses and counterexamples. -/

/-- A minimal well-formed header line. -/
def hdr1 : List Char := "0-1 r--p 0 00:00 0\n".data

/-- A field block containing exactly the required entries. -/
def blockReq : List Char :=
  ("Size: 4 kB\nPss: 2 kB\nPrivate_Dirty: 0 kB\nReferenced: 0 kB\n" ++
   "AnonHugePages: 0 kB\nSwap: 0 kB\nKernelPageSize: 4 kB\nLocked: 0 kB\n" ++
   "VmFlags: rd mr\n").data

/-- `blockReq` with the required `Pss` entry removed. -/
def blockNoPss : List Char :=
  ("Size: 4 kB\nPrivate_Dirty: 0 kB\nReferenced: 0 kB\n" ++
   "AnonHugePages: 0 kB\nSwap: 0 kB\nKernelPageSize: 4 kB\nLocked: 0 kB\n" ++
   "VmFlags: rd\n").data

/-- A field block truncated after its first entry (end of stream inside a
record's field block). -/
def blockTrunc : List Char := "Size: 4 kB\n".data

/-- A header line whose start value exceeds its end value. -/
def hdrRev : List Char := "5-3 r--p 0 00:00 0\n".data

/-- A header line with start below end. -/
def hdrFwd : List Char := "3-5 r--p 0 00:00 0\n".data

/-- A header line with malformed hexadecimal in the address range. -/
def hdrBadHex : List Char := "zz-3 r--p 0 00:00 0\n".data

/-- A header line with only two space-separated fields. -/
def hdrShort : List Char := "0-1 r--p\n".data

/-- The record that `hdr1 ++ blockReq` parses to. -/
def msA : MemStat :=
  { VMStart := 0, VMEnd := 1, VMRead := true, Size := 4, PSS := 2,
    KernelPageSize := 4, VMFlags := ["rd".data, "mr\n".data] }

/-- Concrete records for exercising the summary. -/
def msW1 : MemStat := { Size := 3, PSS := 5, KernelPageSize := 4 }

/-- Second concrete record for exercising the summary. -/
def msW2 : MemStat := { Size := 10, PSS := 1, KernelPageSize := 8 }

/-- The summary of `[msW1, msW2]`. -/
def tW : MemStat := { Size := 13, PSS := 6, KernelPageSize := 4 }

/-! Helper lemmas. -/

theorem findMissing_isSome (tbl : List (List Char × Bool)) (seen : List (List Char)) :
    (findMissing tbl seen).isSome = true ↔ ∃ nm, (nm, false) ∈ tbl ∧ nm ∉ seen := by
  induction tbl with
  | nil => simp [findMissing]
  | cons e t ih =>
    obtain ⟨nm₀, opt₀⟩ := e
    simp only [findMissing]
    cases opt₀ with
    | true =>
      rw [if_neg (by simp), ih]
      constructor
      · rintro ⟨nm, h1, h2⟩; exact ⟨nm, List.mem_cons_of_mem _ h1, h2⟩
      · rintro ⟨nm, h1, h2⟩
        rcases List.mem_cons.mp h1 with h | h
        · exact absurd (congrArg Prod.snd h) (by simp)
        · exact ⟨nm, h, h2⟩
    | false =>
      by_cases hs : nm₀ ∈ seen
      · rw [if_neg (by simp [hs]), ih]
        constructor
        · rintro ⟨nm, h1, h2⟩; exact ⟨nm, List.mem_cons_of_mem _ h1, h2⟩
        · rintro ⟨nm, h1, h2⟩
          rcases List.mem_cons.mp h1 with h | h
          · injection h with hf _
            exact absurd (by rw [hf]; exact hs) h2
          · exact ⟨nm, h, h2⟩
      · rw [if_pos (by simp [hs])]
        exact iff_of_true rfl ⟨nm₀, List.mem_cons_self _ _, hs⟩

theorem findMissing_eq_some (tbl : List (List Char × Bool)) (seen : List (List Char))
    (nm : List Char) (h : findMissing tbl seen = some nm) :
    (nm, false) ∈ tbl ∧ nm ∉ seen := by
  induction tbl with
  | nil => simp [findMissing] at h
  | cons e t ih =>
    obtain ⟨nm₀, opt₀⟩ := e
    simp only [findMissing] at h
    by_cases hc : ¬(nm₀, opt₀).2 ∧ (nm₀, opt₀).1 ∉ seen
    · rw [if_pos hc] at h
      obtain rfl : nm₀ = nm := by exact Option.some.inj h
      have hopt : opt₀ = false := by
        rcases hc with ⟨h1, -⟩
        exact Bool.not_eq_true _ ▸ (by simpa using h1)
      subst hopt
      exact ⟨List.mem_cons_self _ _, hc.2⟩
    · rw [if_neg hc] at h
      obtain ⟨h1, h2⟩ := ih h
      exact ⟨List.mem_cons_of_mem _ h1, h2⟩

/-!
The claim theorems.  Each theorem is annotated with the claim it settles.
-/

/-- C5: the 4-character permission field is decoded positionally —
position 0 accepts `r`/`-` and yields `readable`, position 1 accepts
`w`/`-` and yields `writable`, position 2 accepts `x`/`-` and yields
`executable`, position 3 accepts `s`/`p` and yields `may-share`; any
other character at its position is a fatal error naming that position;
`r-xp` and `rw-s` decode as the claim states. -/
theorem decodePerm_positional :
    (∀ c0 c1 c2 c3 : Char,
      (∀ r w x sh : Bool,
        decodePerm [c0, c1, c2, c3] = .ok (r, w, x, sh) ↔
          ((c0 = 'r' ∨ c0 = '-') ∧ (c1 = 'w' ∨ c1 = '-') ∧
           (c2 = 'x' ∨ c2 = '-') ∧ (c3 = 's' ∨ c3 = 'p') ∧
           r = (c0 == 'r') ∧ w = (c1 == 'w') ∧ x = (c2 == 'x') ∧
           sh = (c3 == 's')))
      ∧ (¬(c0 = 'r' ∨ c0 = '-') →
          decodePerm [c0, c1, c2, c3] = .error (.illegalRead c0))
      ∧ ((c0 = 'r' ∨ c0 = '-') → ¬(c1 = 'w' ∨ c1 = '-') →
          decodePerm [c0, c1, c2, c3] = .error (.illegalWrite c1))
      ∧ ((c0 = 'r' ∨ c0 = '-') → (c1 = 'w' ∨ c1 = '-') →
          ¬(c2 = 'x' ∨ c2 = '-') →
          decodePerm [c0, c1, c2, c3] = .error (.illegalExec c2))
      ∧ ((c0 = 'r' ∨ c0 = '-') → (c1 = 'w' ∨ c1 = '-') →
          (c2 = 'x' ∨ c2 = '-') → ¬(c3 = 's' ∨ c3 = 'p') →
          decodePerm [c0, c1, c2, c3] = .error (.illegalShare c3)))
    ∧ decodePerm "r-xp".data = .ok (true, false, true, false)
    ∧ decodePerm "rw-s".data = .ok (true, true, false, true) := by
  refine ⟨?_, by decide, by decide⟩
  intro c0 c1 c2 c3
  by_cases h0 : c0 = 'r' ∨ c0 = '-' <;> by_cases h1 : c1 = 'w' ∨ c1 = '-' <;>
    by_cases h2 : c2 = 'x' ∨ c2 = '-' <;> by_cases h3 : c3 = 's' ∨ c3 = 'p' <;>
    simp [decodePerm, List.get?, h0, h1, h2, h3, eq_comm]

/-- Witness for C5: the theorem applied at the header permission string
`q--p`, whose first character is out of vocabulary. -/
theorem decodePerm_positional_witness :
    decodePerm ['q', '-', '-', 'p'] = .error (.illegalRead 'q') := by
  exact (decodePerm_positional.1 'q' '-' '-' 'p').2.1 (by decide)

/-- C2: after the `VmFlags` terminator is reached, the post-loop check
fails naming a missing token exactly when some required field was never
seen; the required tokens are exactly Size, Pss, Private_Dirty,
Referenced, AnonHugePages, Swap, KernelPageSize, Locked; a record
omitting `Pss` fails naming `Pss`; a block with only the required fields
succeeds with the optional fields defaulted to zero. -/
theorem required_fields_post_check :
    ((entryTable.filter (fun e => !e.2)).map Prod.fst =
      ["Size".data, "Pss".data, "Private_Dirty".data, "Referenced".data,
       "AnonHugePages".data, "Swap".data, "KernelPageSize".data,
       "Locked".data])
    ∧ (∀ seen, (findMissing entryTable seen).isSome = true ↔
        ∃ nm, (nm, false) ∈ entryTable ∧ nm ∉ seen)
    ∧ (∀ seen nm, findMissing entryTable seen = some nm →
        (nm, false) ∈ entryTable ∧ nm ∉ seen)
    ∧ fillMemStat {} bofLine blockNoPss =
        .error (.neverGot "Pss".data "VmFlags: rd\n".data)
    ∧ ((fillOk (fillMemStat {} bofLine blockReq)).isSome = true
       ∧ ((fillOk (fillMemStat {} bofLine blockReq)).getD {}).RSS = 0
       ∧ ((fillOk (fillMemStat {} bofLine blockReq)).getD {}).SharedClean = 0
       ∧ ((fillOk (fillMemStat {} bofLine blockReq)).getD {}).SharedDirty = 0
       ∧ ((fillOk (fillMemStat {} bofLine blockReq)).getD {}).PrivateClean = 0
       ∧ ((fillOk (fillMemStat {} bofLine blockReq)).getD {}).Anonymous = 0
       ∧ ((fillOk (fillMemStat {} bofLine blockReq)).getD {}).MMUPageSize = 0
       ∧ ((fillOk (fillMemStat {} bofLine blockReq)).getD {}).Nonlinear = 0) := by
  exact ⟨by decide, fun seen => findMissing_isSome entryTable seen,
    fun seen nm h => findMissing_eq_some entryTable seen nm h,
    by decide, by decide⟩

/-- Witness for C2: the post-check applied with nothing seen reports a
token that is required and unseen. -/
theorem required_fields_post_check_witness :
    ("Size".data, false) ∈ entryTable ∧
      "Size".data ∉ ([] : List (List Char)) := by
  exact required_fields_post_check.2.2.1 [] "Size".data (by decide)

/-- C3: inside the field block, a line matching the key-value shape with
an unrecognized token is silently skipped (the loop continues on the rest
of the stream, only `prevLine` advancing), and a line that neither
matches the shape nor begins with `VmFlags:` is a fatal parse error; a
whole parse containing an unrecognized `FooBar: 7 kB` line succeeds,
while one containing a `garbage` line fails. -/
theorem field_block_skip_unknown :
    (∀ fuel ms seen prev s line rest tok ds,
       readString s = some (line, rest) →
       matchEntryLine line = some (tok, ds) →
       tok ∉ entryNames →
       fillMemStatLoopF (fuel + 1) ms seen prev s =
         fillMemStatLoopF fuel ms seen line rest)
    ∧ (∀ fuel ms seen prev s line rest,
       readString s = some (line, rest) →
       matchEntryLine line = none →
       hasPre vmFlagsTok line = false →
       fillMemStatLoopF (fuel + 1) ms seen prev s =
         .error (.unknownLine line prev))
    ∧ (okRecords (parseAll (hdr1 ++ "FooBar: 7 kB\n".data ++ blockReq))).isSome
        = true
    ∧ parseAll (hdr1 ++ "garbage\n".data ++ blockReq) =
        .error (.fillWrap [] (.unknownLine "garbage\n".data bofLine)) := by
  refine ⟨?_, ?_, by decide, by decide⟩
  · intro fuel ms seen prev s line rest tok ds h1 h2 h3
    simp [fillMemStatLoopF, h1, h2, h3]
  · intro fuel ms seen prev s line rest h1 h2 h3
    simp [fillMemStatLoopF, h1, h2, h3]

/-- Witness for C3: one loop step over the unrecognized line
`FooBar: 7 kB` reduces to the loop on the remaining stream. -/
theorem field_block_skip_unknown_witness :
    fillMemStatLoopF 1 {} [] bofLine ("FooBar: 7 kB\n".data ++ blockReq) =
      fillMemStatLoopF 0 {} [] "FooBar: 7 kB\n".data blockReq := by
  exact field_block_skip_unknown.1 0 {} [] bofLine
    ("FooBar: 7 kB\n".data ++ blockReq) "FooBar: 7 kB\n".data blockReq
    "FooBar".data "7".data (by decide) (by decide) (by decide)

/-- Counterexample for C7: on the line `VmFlags: rd mr\n` the decoded set
contains the token `mr\n` — the final token carries the line terminator —
and does not contain `mr`, contradicting the claim that the decoded set
is `{rd, mr}` with no token carrying the terminator. -/
theorem vmflags_terminator_carried_cx :
    parseVmFlags {} ("VmFlags: rd mr\n".data) =
      .ok { VMFlags := ["rd".data, "mr\n".data] }
    ∧ "mr".data ∉ (["rd".data, "mr\n".data] : List (List Char)) := by
  exact ⟨by decide, by decide⟩

/-- C7 (amended): the flags line is split on single spaces, decoding
fails exactly when the first token is not `VmFlags:`, and the subsequent
tokens are inserted verbatim as split — including empty tokens arising
from consecutive spaces and a final token that retains the `\n` line
terminator. -/
theorem vmflags_decode_amended :
    (∀ ms line f0 fr, splitOn ' ' line = f0 :: fr →
      ((f0 = vmFlagsTok →
         parseVmFlags ms line = .ok { ms with VMFlags := ms.VMFlags ++ fr })
       ∧ (f0 ≠ vmFlagsTok →
         parseVmFlags ms line = .error (.vmFlagsLine line))))
    ∧ parseVmFlags {} ("VmFlags: rd mr\n".data) =
        .ok { VMFlags := ["rd".data, "mr\n".data] }
    ∧ parseVmFlags {} ("VmFlags: rd  mr\n".data) =
        .ok { VMFlags := ["rd".data, [], "mr\n".data] } := by
  refine ⟨?_, by decide, by decide⟩
  intro ms line f0 fr h
  constructor <;> intro hf <;> simp [parseVmFlags, h, hf]

/-- Witness for C7 (amended): a line whose first token is `Flags:`
rather than `VmFlags:` is rejected. -/
theorem vmflags_decode_amended_witness :
    parseVmFlags {} ("Flags: rd\n".data) =
      .error (.vmFlagsLine ("Flags: rd\n".data)) := by
  exact ((vmflags_decode_amended.1 {} ("Flags: rd\n".data) "Flags:".data
    ["rd\n".data] (by decide)).2) (by decide)

/-- Counterexample for C9: the stream with header `5-3 r--p 0 00:00 0`
parses successfully, yet its record violates `start < end` — the parser
never compares the two values. -/
theorem start_end_unchecked_cx :
    (okRecords (parseAll (hdrRev ++ blockReq))).isSome = true
    ∧ ((okRecords (parseAll (hdrRev ++ blockReq))).getD []).all
        (fun m => decide (m.VMStart < m.VMEnd)) = false := by
  exact ⟨by decide, by decide⟩

/-- C9 (amended): a successful parse stores the header's two
hexadecimal values as `start` and `end` in source order without any
ordering check, so `start < end` holds only when the input satisfies it. -/
theorem start_end_preserved :
    ((okRecords (parseAll (hdrRev ++ blockReq))).getD []).map
        (fun m => (m.VMStart, m.VMEnd)) = [(5, 3)]
    ∧ ((okRecords (parseAll (hdrFwd ++ blockReq))).getD []).map
        (fun m => (m.VMStart, m.VMEnd)) = [(3, 5)] := by
  exact ⟨by decide, by decide⟩

theorem sumStep_bounded (t a : MemStat) : SummedBounded (sumStep t a) := by
  refine ⟨?_, ?_, ?_, ?_, ?_, ?_, ?_, ?_, ?_, ?_, ?_, ?_, ?_⟩ <;>
    exact Nat.mod_lt _ (by norm_num)

theorem foldl_sumStep (l : List MemStat) :
    ∀ t : MemStat, SummedBounded t →
    l.foldl sumStep t = { t with
      Size := (t.Size + (l.map MemStat.Size).sum) % 2 ^ 64,
      RSS := (t.RSS + (l.map MemStat.RSS).sum) % 2 ^ 64,
      PSS := (t.PSS + (l.map MemStat.PSS).sum) % 2 ^ 64,
      SharedClean := (t.SharedClean + (l.map MemStat.SharedClean).sum) % 2 ^ 64,
      SharedDirty := (t.SharedDirty + (l.map MemStat.SharedDirty).sum) % 2 ^ 64,
      PrivateClean := (t.PrivateClean + (l.map MemStat.PrivateClean).sum) % 2 ^ 64,
      PrivateDirty := (t.PrivateDirty + (l.map MemStat.PrivateDirty).sum) % 2 ^ 64,
      Referenced := (t.Referenced + (l.map MemStat.Referenced).sum) % 2 ^ 64,
      Anonymous := (t.Anonymous + (l.map MemStat.Anonymous).sum) % 2 ^ 64,
      AnonymousTHP := (t.AnonymousTHP + (l.map MemStat.AnonymousTHP).sum) % 2 ^ 64,
      Swap := (t.Swap + (l.map MemStat.Swap).sum) % 2 ^ 64,
      Locked := (t.Locked + (l.map MemStat.Locked).sum) % 2 ^ 64,
      Nonlinear := (t.Nonlinear + (l.map MemStat.Nonlinear).sum) % 2 ^ 64 } := by
  induction l with
  | nil =>
    intro t ht
    obtain ⟨h1, h2, h3, h4, h5, h6, h7, h8, h9, h10, h11, h12, h13⟩ := ht
    simp only [List.foldl_nil, List.map_nil, List.sum_nil, Nat.add_zero,
      Nat.mod_eq_of_lt h1, Nat.mod_eq_of_lt h2, Nat.mod_eq_of_lt h3,
      Nat.mod_eq_of_lt h4, Nat.mod_eq_of_lt h5, Nat.mod_eq_of_lt h6,
      Nat.mod_eq_of_lt h7, Nat.mod_eq_of_lt h8, Nat.mod_eq_of_lt h9,
      Nat.mod_eq_of_lt h10, Nat.mod_eq_of_lt h11, Nat.mod_eq_of_lt h12,
      Nat.mod_eq_of_lt h13]
  | cons a l ih =>
    intro t ht
    rw [List.foldl_cons, ih (sumStep t a) (sumStep_bounded t a)]
    simp [sumStep, Nat.mod_add_mod, Nat.add_assoc]

/-- C4: for a non-empty record sequence, each summed accounting field of
the summary equals the (`uint64`, i.e. modulo `2^64`) sum of that field
over all records; kernel-page-size and MMU-page-size are copied from the
first record; address-range, permission and identity fields stay at their
zero values. -/
theorem summary_totals :
    ∀ (r0 : MemStat) (rest : List MemStat) (t : MemStat),
      memStatsSummary (r0 :: rest) = some t →
      ((t.Size = ((r0 :: rest).map MemStat.Size).sum % 2 ^ 64
        ∧ t.RSS = ((r0 :: rest).map MemStat.RSS).sum % 2 ^ 64
        ∧ t.PSS = ((r0 :: rest).map MemStat.PSS).sum % 2 ^ 64
        ∧ t.SharedClean = ((r0 :: rest).map MemStat.SharedClean).sum % 2 ^ 64
        ∧ t.SharedDirty = ((r0 :: rest).map MemStat.SharedDirty).sum % 2 ^ 64
        ∧ t.PrivateClean = ((r0 :: rest).map MemStat.PrivateClean).sum % 2 ^ 64
        ∧ t.PrivateDirty = ((r0 :: rest).map MemStat.PrivateDirty).sum % 2 ^ 64
        ∧ t.Referenced = ((r0 :: rest).map MemStat.Referenced).sum % 2 ^ 64
        ∧ t.Anonymous = ((r0 :: rest).map MemStat.Anonymous).sum % 2 ^ 64
        ∧ t.AnonymousTHP = ((r0 :: rest).map MemStat.AnonymousTHP).sum % 2 ^ 64
        ∧ t.Swap = ((r0 :: rest).map MemStat.Swap).sum % 2 ^ 64
        ∧ t.Locked = ((r0 :: rest).map MemStat.Locked).sum % 2 ^ 64
        ∧ t.Nonlinear = ((r0 :: rest).map MemStat.Nonlinear).sum % 2 ^ 64)
       ∧ (t.KernelPageSize = r0.KernelPageSize
          ∧ t.MMUPageSize = r0.MMUPageSize)
       ∧ (t.VMStart = 0 ∧ t.VMEnd = 0 ∧ t.VMRead = false ∧ t.VMWrite = false
          ∧ t.VMExec = false ∧ t.VMMayShare = false ∧ t.PageOffset = 0
          ∧ t.MajorDev = 0 ∧ t.MinorDev = 0 ∧ t.Inode = 0 ∧ t.FileName = []
          ∧ t.VMFlags = [])) := by
  intro r0 rest t h
  have hb : SummedBounded
      { KernelPageSize := r0.KernelPageSize, MMUPageSize := r0.MMUPageSize } := by
    refine ⟨?_, ?_, ?_, ?_, ?_, ?_, ?_, ?_, ?_, ?_, ?_, ?_, ?_⟩ <;> norm_num
  obtain rfl : ((r0 :: rest).foldl sumStep
      { KernelPageSize := r0.KernelPageSize, MMUPageSize := r0.MMUPageSize }) = t :=
    Option.some.inj h
  rw [foldl_sumStep _ _ hb]
  simp

/-- Witness for C4: the summary of the two concrete records `msW1`,
`msW2` has `Size` equal to the wrapped sum of their sizes. -/
theorem summary_totals_witness :
    tW.Size = ([msW1, msW2].map MemStat.Size).sum % 2 ^ 64 := by
  exact (summary_totals msW1 [msW2] tW (by decide)).1.1

/-- C6: in the older source variant's terminating phase, when the decoded
flag set contains the exact token `nl`, an immediately following
`Nonlinear: N kB` line is consumed and parsed into the nonlinear field,
its absence (or malformation) is a fatal error, and without `nl` no
trailing line is consumed. -/
theorem old_variant_nonlinear :
    (∀ ms s line rest f0 fr,
      readString s = some (line, rest) →
      splitOn ' ' line = f0 :: fr →
      f0 = vmFlagsTok →
      (("nl".data ∈ ms.VMFlags ++ fr →
         (∀ v rest2, scanNonlinear rest = some (v, rest2) →
            fillMemStatOldTail ms s =
              .ok ({ ms with VMFlags := ms.VMFlags ++ fr, Nonlinear := v },
                   rest2))
         ∧ (scanNonlinear rest = none →
            fillMemStatOldTail ms s = .error .nonlinearErr))
       ∧ ("nl".data ∉ ms.VMFlags ++ fr →
          fillMemStatOldTail ms s =
            .ok ({ ms with VMFlags := ms.VMFlags ++ fr }, rest))))
    ∧ fillMemStatOldTail {} ("VmFlags: nl rd\nNonlinear:        4 kB\n".data)
        = .ok ({ VMFlags := ["nl".data, "rd\n".data], Nonlinear := 4 }, [])
    ∧ fillMemStatOldTail {} ("VmFlags: nl rd\n".data ++ hdr1) =
        .error .nonlinearErr
    ∧ fillMemStatOldTail {} ("VmFlags: rd mr\n".data) =
        .ok ({ VMFlags := ["rd".data, "mr\n".data] }, []) := by
  refine ⟨?_, by decide, by decide, by decide⟩
  intro ms s line rest f0 fr h1 h2 h3
  subst h3
  refine ⟨fun hnl => ⟨fun v rest2 hscan => ?_, fun hscan => ?_⟩, fun hnl => ?_⟩
  · simp [fillMemStatOldTail, h1, h2, hnl, hscan]
  · simp [fillMemStatOldTail, h1, h2, hnl, hscan]
  · simp [fillMemStatOldTail, h1, h2, hnl]

/-- Witness for C6: applied to the concrete stream whose flags line is
`VmFlags: nl rd` followed by `Nonlinear:        4 kB`. -/
theorem old_variant_nonlinear_witness :
    fillMemStatOldTail {} ("VmFlags: nl rd\nNonlinear:        4 kB\n".data) =
      .ok ({ VMFlags := ["nl".data, "rd\n".data], Nonlinear := 4 },
           ([] : List Char)) := by
  have h := (old_variant_nonlinear.1 {}
    ("VmFlags: nl rd\nNonlinear:        4 kB\n".data)
    ("VmFlags: nl rd\n".data) ("Nonlinear:        4 kB\n".data)
    vmFlagsTok ["nl".data, "rd\n".data]
    (by decide) (by decide) rfl).1
  exact (h (by decide)).1 4 [] (by decide)

/-- Counterexample for C8: the malformed hexadecimal header
`zz-3 r--p 0 00:00 0` produces the format error
`Error parsing vm start: "zz"`, which carries only the offending
fragment `zz` — neither the raw offending line (with or without its
terminator) nor the preceding line appears in the error. -/
theorem header_error_omits_lines_cx :
    parseAll (hdrBadHex ++ blockReq) = .error (.vmStart "zz".data)
    ∧ hdrBadHex ∉ errStrings (PErr.vmStart "zz".data)
    ∧ trimNL hdrBadHex ∉ errStrings (PErr.vmStart "zz".data)
    ∧ bofLine ∉ errStrings (PErr.vmStart "zz".data) := by
  exact ⟨by decide, by decide, by decide, by decide⟩

/-- C8 (amended): field-block errors — an unexpected line shape and an
unparsable numeric value — carry both the raw offending line and the raw
preceding line; the missing-required-field error carries the missing
token and the last line read (only one line); header-line errors carry
only the offending fragment or character, never the raw line or the
preceding line. -/
theorem error_context_amended :
    (∀ fuel ms seen prev s line rest,
       readString s = some (line, rest) →
       matchEntryLine line = none →
       hasPre vmFlagsTok line = false →
       fillMemStatLoopF (fuel + 1) ms seen prev s =
         .error (.unknownLine line prev)
       ∧ errStrings (.unknownLine line prev) = [line, prev])
    ∧ (∀ fuel ms seen prev s line rest tok ds,
       readString s = some (line, rest) →
       matchEntryLine line = some (tok, ds) →
       tok ∈ entryNames →
       parseDec ds = none →
       fillMemStatLoopF (fuel + 1) ms seen prev s =
         .error (.parseIntVal ds line prev)
       ∧ line ∈ errStrings (.parseIntVal ds line prev)
       ∧ prev ∈ errStrings (.parseIntVal ds line prev))
    ∧ (∀ ms prev s ms' seen prev' rest nm,
       fillMemStatLoopF (s.length + 1) ms [] prev s =
         .ok (ms', seen, prev', rest) →
       findMissing entryTable seen = some nm →
       fillMemStat ms prev s = .error (.neverGot nm prev')
       ∧ errStrings (.neverGot nm prev') = [nm, prev'])
    ∧ (errStrings (PErr.vmStart "zz".data) = ["zz".data]
       ∧ errStrings (PErr.illegalRead 'q') = []
       ∧ errStrings (PErr.pageOffset "qq".data) = ["qq".data]) := by
  refine ⟨?_, ?_, ?_, by decide⟩
  · intro fuel ms seen prev s line rest h1 h2 h3
    exact ⟨by simp [fillMemStatLoopF, h1, h2, h3], by simp [errStrings]⟩
  · intro fuel ms seen prev s line rest tok ds h1 h2 h3 h4
    exact ⟨by simp [fillMemStatLoopF, h1, h2, h3, h4], by simp [errStrings],
      by simp [errStrings]⟩
  · intro ms prev s ms' seen prev' rest nm hloop hmiss
    exact ⟨by simp [fillMemStat, hloop, hmiss], by simp [errStrings]⟩

/-- Witness for C8 (amended): the unknown-line branch applied to the
concrete line `garbage`. -/
theorem error_context_amended_witness :
    fillMemStatLoopF 1 {} [] bofLine ("garbage\n".data) =
      .error (.unknownLine "garbage\n".data bofLine)
    ∧ errStrings (.unknownLine "garbage\n".data bofLine) =
      ["garbage\n".data, bofLine] := by
  exact error_context_amended.1 0 {} [] bofLine ("garbage\n".data)
    "garbage\n".data [] (by decide) (by decide) (by decide)

theorem decodePerm_ne_oor (flags : List Char) (h : 4 ≤ flags.length) :
    decodePerm flags ≠ .error .indexOOR := by
  rcases flags with _ | ⟨c0, _ | ⟨c1, _ | ⟨c2, _ | ⟨c3, tl⟩⟩⟩⟩ <;>
    simp only [List.length_nil, List.length_cons] at h <;> try omega
  by_cases h0 : c0 = 'r' ∨ c0 = '-' <;> by_cases h1 : c1 = 'w' ∨ c1 = '-' <;>
    by_cases h2 : c2 = 'x' ∨ c2 = '-' <;> by_cases h3 : c3 = 's' ∨ c3 = 'p' <;>
    simp [decodePerm, List.get?, h0, h1, h2, h3]

/-- C10: under the precondition that the header line splits into at least
5 space-separated fields whose second field has length at least 4, none
of the unguarded accesses `parts[1]`..`parts[4]`, `flags[0]`..`flags[3]`
is out of bounds (the `indexOOR` outcome is unreachable); and on the
2-field header `0-1 r--p` the function performs an out-of-range access
instead of returning a format error. -/
theorem header_index_unguarded :
    (∀ s line rest,
       readString s = some (line, rest) →
       5 ≤ (splitOn ' ' (trimNL line)).length →
       (∀ f, (splitOn ' ' (trimNL line)).get? 1 = some f → 4 ≤ f.length) →
       fillMemStatVM s ≠ .error .indexOOR)
    ∧ fillMemStatVM hdrShort = .error .indexOOR := by
  refine ⟨?_, by decide⟩
  intro s line rest hread hlen hflags hcontra
  have l0 : 0 < (splitOn ' ' (trimNL line)).length := by omega
  have l1 : 1 < (splitOn ' ' (trimNL line)).length := by omega
  have l2 : 2 < (splitOn ' ' (trimNL line)).length := by omega
  have l3 : 3 < (splitOn ' ' (trimNL line)).length := by omega
  have l4 : 4 < (splitOn ' ' (trimNL line)).length := by omega
  simp only [fillMemStatVM, hread, List.get?_eq_get l0, List.get?_eq_get l1,
    List.get?_eq_get l2, List.get?_eq_get l3, List.get?_eq_get l4] at hcontra
  by_cases hv : (splitOn '-' ((splitOn ' ' (trimNL line)).get ⟨0, l0⟩)).length ≠ 2
  · rw [if_pos hv] at hcontra
    simp at hcontra
  · rw [if_neg hv] at hcontra
    have hv2 : (splitOn '-' ((splitOn ' ' (trimNL line)).get ⟨0, l0⟩)).length = 2 := by
      omega
    have m0 : 0 < (splitOn '-' ((splitOn ' ' (trimNL line)).get ⟨0, l0⟩)).length := by
      omega
    have m1 : 1 < (splitOn '-' ((splitOn ' ' (trimNL line)).get ⟨0, l0⟩)).length := by
      omega
    simp only [List.get?_eq_get m0, List.get?_eq_get m1] at hcontra
    rcases hx0 : parseHex ((splitOn '-' _).get ⟨0, m0⟩) with _ | a <;>
      simp only [hx0] at hcontra
    · simp at hcontra
    rcases hx1 : parseHex ((splitOn '-' _).get ⟨1, m1⟩) with _ | b <;>
      simp only [hx1] at hcontra
    · simp at hcontra
    rcases hx2 : parseHex ((splitOn ' ' (trimNL line)).get ⟨2, l2⟩) with _ | off <;>
      simp only [hx2] at hcontra
    · simp at hcontra
    rcases hx3 : scanDevs ((splitOn ' ' (trimNL line)).get ⟨3, l3⟩) with _ | mm <;>
      simp only [hx3] at hcontra
    · simp at hcontra
    obtain ⟨maj, minr⟩ := mm
    rcases hx4 : parseDec ((splitOn ' ' (trimNL line)).get ⟨4, l4⟩) with _ | ino <;>
      simp only [hx4] at hcontra
    · simp at hcontra
    have hlen4 : 4 ≤ ((splitOn ' ' (trimNL line)).get ⟨1, l1⟩).length :=
      hflags _ (List.get?_eq_get l1)
    rcases hdp : decodePerm ((splitOn ' ' (trimNL line)).get ⟨1, l1⟩) with e | q <;>
      simp only [hdp] at hcontra
    · have := decodePerm_ne_oor _ hlen4
      simp only [Except.error.injEq] at hcontra
      exact this (hcontra ▸ hdp)
    · obtain ⟨r, w, x, sh⟩ := q
      simp at hcontra

/-- Witness for C10: applied to the well-formed 6-field header `hdr1`
followed by a field block — no out-of-range access occurs. -/
theorem header_index_unguarded_witness :
    fillMemStatVM (hdr1 ++ blockReq) ≠ .error .indexOOR := by
  refine header_index_unguarded.1 (hdr1 ++ blockReq) hdr1 blockReq
    (by decide) (by decide) ?_
  intro f hf
  rw [show (splitOn ' ' (trimNL hdr1)).get? 1 = some "r--p".data by decide] at hf
  obtain rfl := Option.some.inj hf
  decide

theorem readString_some_length :
    ∀ {s l r : List Char}, readString s = some (l, r) → r.length < s.length := by
  intro s
  induction s with
  | nil => intro l r h; simp [readString] at h
  | cons c rest ih =>
    intro l r h
    simp only [readString] at h
    by_cases hc : c = '\n'
    · rw [if_pos hc] at h
      have h' := Option.some.inj h
      have : r = rest := (congrArg Prod.snd h').symm
      subst this
      simp
    · rw [if_neg hc] at h
      rcases hr : readString rest with _ | ⟨l', r'⟩ <;> rw [hr] at h
      · cases h
      · have h' := Option.some.inj h
        have : r = r' := (congrArg Prod.snd h').symm
        subst this
        exact Nat.lt_succ_of_lt (ih hr)

theorem decodePerm_ne_eof (flags : List Char) : decodePerm flags ≠ .error .eof := by
  intro h
  unfold decodePerm at h
  repeat' split at h
  all_goals simp_all

theorem fillMemStatVM_cases (s : List Char) (line0 rest : List Char)
    (hr : readString s = some (line0, rest)) :
    (∃ ms, fillMemStatVM s = .ok (ms, rest)) ∨
    (∃ e, fillMemStatVM s = .error e ∧ e ≠ .eof) := by
  unfold fillMemStatVM
  rw [hr]
  rcases hp0 : (splitOn ' ' (trimNL line0)).get? 0 with _ | p0 <;>
    simp only [hp0]
  · exact .inr ⟨.indexOOR, rfl, by simp⟩
  by_cases hv : (splitOn '-' p0).length ≠ 2
  · rw [if_pos hv]
    exact .inr ⟨.vmStartEnd p0, rfl, by simp⟩
  rw [if_neg hv]
  rcases hv0 : (splitOn '-' p0).get? 0 with _ | v0 <;>
    rcases hv1 : (splitOn '-' p0).get? 1 with _ | v1 <;>
    simp only [hv0, hv1]
  · exact .inr ⟨.indexOOR, rfl, by simp⟩
  · exact .inr ⟨.indexOOR, rfl, by simp⟩
  · exact .inr ⟨.indexOOR, rfl, by simp⟩
  rcases hx0 : parseHex v0 with _ | a <;> simp only [hx0]
  · exact .inr ⟨.vmStart v0, rfl, by simp⟩
  rcases hx1 : parseHex v1 with _ | b <;> simp only [hx1]
  · exact .inr ⟨.vmStartEnd p0, rfl, by simp⟩
  rcases hp1 : (splitOn ' ' (trimNL line0)).get? 1 with _ | flags <;>
    simp only [hp1]
  · exact .inr ⟨.indexOOR, rfl, by simp⟩
  rcases hp2 : (splitOn ' ' (trimNL line0)).get? 2 with _ | p2 <;>
    simp only [hp2]
  · exact .inr ⟨.indexOOR, rfl, by simp⟩
  rcases hx2 : parseHex p2 with _ | off <;> simp only [hx2]
  · exact .inr ⟨.pageOffset p2, rfl, by simp⟩
  rcases hp3 : (splitOn ' ' (trimNL line0)).get? 3 with _ | p3 <;>
    simp only [hp3]
  · exact .inr ⟨.indexOOR, rfl, by simp⟩
  rcases hx3 : scanDevs p3 with _ | ⟨maj, minr⟩ <;> simp only [hx3]
  · exact .inr ⟨.devnos p3, rfl, by simp⟩
  rcases hp4 : (splitOn ' ' (trimNL line0)).get? 4 with _ | p4 <;>
    simp only [hp4]
  · exact .inr ⟨.indexOOR, rfl, by simp⟩
  rcases hx4 : parseDec p4 with _ | ino <;> simp only [hx4]
  · exact .inr ⟨.inode p4, rfl, by simp⟩
  rcases hdp : decodePerm flags with e | ⟨r, w, x, sh⟩ <;> simp only [hdp]
  · exact .inr ⟨e, rfl, fun hee => decodePerm_ne_eof _ (hee ▸ hdp)⟩
  · exact .inl ⟨_, rfl⟩

theorem fillMemStatVM_ok_length {s : List Char} {ms : MemStat} {s1 : List Char}
    (h : fillMemStatVM s = .ok (ms, s1)) : s1.length < s.length := by
  rcases hr : readString s with _ | ⟨line0, rest⟩
  · rw [show fillMemStatVM s = .error .eof by unfold fillMemStatVM; rw [hr]] at h
    cases h
  · rcases fillMemStatVM_cases s line0 rest hr with ⟨ms', hok⟩ | ⟨e, herr, -⟩
    · rw [hok] at h
      have h' := Except.ok.inj h
      have : s1 = rest := (congrArg Prod.snd h').symm
      subst this
      exact readString_some_length hr
    · rw [herr] at h
      cases h

theorem fillMemStatVM_eof_iff (s : List Char) :
    fillMemStatVM s = .error .eof ↔ readString s = none := by
  constructor
  · intro h
    rcases hr : readString s with _ | ⟨line0, rest⟩
    · rfl
    · rcases fillMemStatVM_cases s line0 rest hr with ⟨ms, hok⟩ | ⟨e, herr, hne⟩
      · rw [hok] at h; cases h
      · rw [herr] at h
        exact absurd (Except.error.inj h) hne
  · intro h
    unfold fillMemStatVM
    rw [h]

theorem fillMemStatLoopF_ne_eof :
    ∀ fuel ms seen prev s, fillMemStatLoopF fuel ms seen prev s ≠ .error .eof := by
  intro fuel
  induction fuel with
  | zero => intro ms seen prev s h; simp [fillMemStatLoopF] at h
  | succ fuel ih =>
    intro ms seen prev s h
    unfold fillMemStatLoopF at h
    repeat' split at h
    all_goals simp_all

theorem fillMemStat_ne_eof (ms : MemStat) (prev s : List Char) :
    fillMemStat ms prev s ≠ .error .eof := by
  intro h
  unfold fillMemStat at h
  rcases hl : fillMemStatLoopF (s.length + 1) ms [] prev s with
    e | ⟨ms', seen, prev', rest⟩ <;> simp only [hl] at h
  · simp only [Except.error.injEq] at h
    subst h
    exact fillMemStatLoopF_ne_eof _ _ _ _ _ hl
  · rcases hm : findMissing entryTable seen with _ | nm <;>
      simp only [hm] at h <;> simp_all

theorem parseMemStat_eof_iff (s prev : List Char) :
    parseMemStat s prev = .error .eof ↔ readString s = none := by
  constructor
  · intro h
    unfold parseMemStat at h
    rcases hv : fillMemStatVM s with e | ⟨ms, s1⟩ <;> simp only [hv] at h
    · simp only [Except.error.injEq] at h
      subst h
      exact (fillMemStatVM_eof_iff s).mp hv
    · rcases hf : fillMemStat ms prev s1 with e | ⟨ms', prev', s2⟩ <;>
        simp only [hf] at h <;> simp_all
  · intro h
    unfold parseMemStat
    rw [(fillMemStatVM_eof_iff s).mpr h]

theorem fillMemStatLoopF_ok_length :
    ∀ fuel ms seen prev s ms' seen' prev' rest,
      fillMemStatLoopF fuel ms seen prev s = .ok (ms', seen', prev', rest) →
      rest.length ≤ s.length := by
  intro fuel
  induction fuel with
  | zero =>
    intro ms seen prev s ms' seen' prev' rest h
    simp [fillMemStatLoopF] at h
  | succ fuel ih =>
    intro ms seen prev s ms' seen' prev' rest h
    unfold fillMemStatLoopF at h
    rcases hr : readString s with _ | ⟨line, rest0⟩ <;> simp only [hr] at h
    · cases h
    · have hlt := readString_some_length hr
      rcases hm : matchEntryLine line with _ | ⟨tok, ds⟩ <;> simp only [hm] at h
      · cases hhp : hasPre vmFlagsTok line <;> simp only [hhp] at h <;>
          simp only [Bool.false_eq_true, if_false, if_true] at h
        · cases h
        · rcases hpv : parseVmFlags ms line with e | ms'' <;>
            simp only [hpv] at h
          · cases h
          · have h' := Except.ok.inj h
            have : rest = rest0 := (congrArg (fun t => t.2.2.2) h').symm
            subst this
            exact le_of_lt hlt
      · by_cases ht : tok ∈ entryNames
        · rw [if_pos ht] at h
          rcases hd : parseDec ds with _ | v <;> simp only [hd] at h
          · cases h
          · exact le_trans (ih _ _ _ _ _ _ _ _ h) (le_of_lt hlt)
        · rw [if_neg ht] at h
          exact le_trans (ih _ _ _ _ _ _ _ _ h) (le_of_lt hlt)

theorem parseMemStat_ok_length {s prev : List Char} {m : MemStat}
    {s' p' : List Char} (h : parseMemStat s prev = .ok (m, s', p')) :
    s'.length < s.length := by
  unfold parseMemStat at h
  rcases hv : fillMemStatVM s with e | ⟨ms, s1⟩ <;> simp only [hv] at h
  · cases h
  · rcases hf : fillMemStat ms prev s1 with e | ⟨ms', prev', s2⟩ <;>
      simp only [hf] at h
    · cases h
    · have h' := Except.ok.inj h
      have hs2 : s2 = s' := congrArg (fun t => t.2.1) h'
      subst hs2
      have hvm := fillMemStatVM_ok_length hv
      unfold fillMemStat at hf
      rcases hl : fillMemStatLoopF (s1.length + 1) ms [] prev s1 with
        e | ⟨msl, seen, prevl, restl⟩ <;> simp only [hl] at hf
      · cases hf
      · rcases hmm : findMissing entryTable seen with _ | nm <;>
          simp only [hmm] at hf
        · have hf' := Except.ok.inj hf
          have : restl = s2 := congrArg (fun t => t.2.2) hf'
          subst this
          exact lt_of_le_of_lt
            (fillMemStatLoopF_ok_length _ _ _ _ _ _ _ _ _ hl) hvm
        · cases hf

theorem parseLoopF_spec :
    ∀ n s prev acc fuel, s.length = n → n < fuel →
      ((∀ l, parseLoopF fuel s prev acc = .ok l ↔
         ∃ l' s' p', l = acc ++ l' ∧ ParsesTo s prev l' s' p' ∧
           readString s' = none)
       ∧ (∀ e, parseLoopF fuel s prev acc = .error e ↔
         e ≠ .eof ∧ ∃ l' s' p', ParsesTo s prev l' s' p' ∧
           parseMemStat s' p' = .error e)) := by
  intro n
  induction n using Nat.strong_induction_on with
  | _ n ih =>
    intro s prev acc fuel hn hfuel
    obtain ⟨fuel, rfl⟩ : ∃ f, fuel = f + 1 := ⟨fuel - 1, by omega⟩
    rcases hpm : parseMemStat s prev with e | ⟨m, s', p'⟩
    · by_cases he : e = PErr.eof
      · subst he
        have heq : parseLoopF (fuel + 1) s prev acc = .ok acc := by
          simp [parseLoopF, hpm]
        have hrs : readString s = none := (parseMemStat_eof_iff s prev).mp hpm
        constructor
        · intro l
          rw [heq]
          constructor
          · intro hl
            obtain rfl : acc = l := Except.ok.inj hl
            exact ⟨[], s, prev, by simp, ParsesTo.refl s prev, hrs⟩
          · rintro ⟨l', s', p', rfl, hpt, hrs'⟩
            cases hpt with
            | refl => simp
            | step hstep _ => rw [hpm] at hstep; cases hstep
        · intro e
          rw [heq]
          constructor
          · intro hl; cases hl
          · rintro ⟨hne, l', s', p', hpt, hpm'⟩
            exfalso
            cases hpt with
            | refl =>
              have hee : PErr.eof = e := Except.error.inj (hpm.symm.trans hpm')
              exact hne hee.symm
            | step hstep _ => rw [hpm] at hstep; cases hstep
      · have heq : parseLoopF (fuel + 1) s prev acc = .error e := by
          simp [parseLoopF, hpm, he]
        constructor
        · intro l
          rw [heq]
          constructor
          · intro hl; cases hl
          · rintro ⟨l', s', p', rfl, hpt, hrs'⟩
            exfalso
            cases hpt with
            | refl =>
              have : parseMemStat s prev = .error .eof :=
                (parseMemStat_eof_iff s prev).mpr hrs'
              rw [hpm] at this
              exact he (Except.error.inj this)
            | step hstep _ => rw [hpm] at hstep; cases hstep
        · intro e'
          rw [heq]
          constructor
          · intro hl
            obtain rfl : e = e' := Except.error.inj hl
            exact ⟨he, [], s, prev, ParsesTo.refl s prev, hpm⟩
          · rintro ⟨hne, l', s', p', hpt, hpm'⟩
            cases hpt with
            | refl =>
              rw [hpm] at hpm'
              rw [Except.error.inj hpm']
            | step hstep _ => rw [hpm] at hstep; cases hstep
    · have hlen : s'.length < n := hn ▸ parseMemStat_ok_length hpm
      have heq : parseLoopF (fuel + 1) s prev acc =
          parseLoopF fuel s' p' (acc ++ [m]) := by
        simp [parseLoopF, hpm]
      have hihm := ih s'.length hlen s' p' (acc ++ [m]) fuel rfl (by omega)
      constructor
      · intro l
        rw [heq, hihm.1 l]
        constructor
        · rintro ⟨l'', s'', p'', rfl, hpt, hrs⟩
          exact ⟨m :: l'', s'', p'', by simp, ParsesTo.step hpm hpt, hrs⟩
        · rintro ⟨l', s'', p'', rfl, hpt, hrs⟩
          cases hpt with
          | refl =>
            exfalso
            have : parseMemStat s prev = .error .eof :=
              (parseMemStat_eof_iff s prev).mpr hrs
            rw [hpm] at this
            cases this
          | step hstep hrest =>
            rename_i m₀ s₁ p₁ tail
            rw [hpm] at hstep
            obtain ⟨rfl, rfl, rfl⟩ : m = m₀ ∧ s' = s₁ ∧ p' = p₁ := by
              simpa using Except.ok.inj hstep
            exact ⟨tail, s'', p'', by simp, hrest, hrs⟩
      · intro e
        rw [heq, hihm.2 e]
        constructor
        · rintro ⟨hne, l'', s'', p'', hpt, hpm'⟩
          exact ⟨hne, m :: l'', s'', p'', ParsesTo.step hpm hpt, hpm'⟩
        · rintro ⟨hne, l', s'', p'', hpt, hpm'⟩
          cases hpt with
          | refl => rw [hpm] at hpm'; cases hpm'
          | step hstep hrest =>
            rename_i m₀ s₁ p₁ tail
            rw [hpm] at hstep
            obtain ⟨rfl, rfl, rfl⟩ : m = m₀ ∧ s' = s₁ ∧ p' = p₁ := by
              simpa using Except.ok.inj hstep
            exact ⟨hne, tail, s'', p'', hrest, hpm'⟩

/-- C1: the record loop of `NewSmaps` terminates successfully with the
records accumulated so far exactly when end-of-stream is hit while
attempting to read a record's header line (`fillMemStatVM` returning the
verbatim `io.EOF`, which happens iff the stream holds no further
newline-terminated line); any other failure — including end-of-stream
inside a record's field block, as in the concrete truncated stream —
returns that error and discards all accumulated records (the `NewSmaps`
result is the zero value, modelled as the empty record list). -/
theorem parse_loop_eof_at_record_boundary :
    (∀ s', fillMemStatVM s' = .error PErr.eof ↔ readString s' = none)
    ∧ (∀ s l, parseAll s = .ok l ↔
        ∃ s' p', ParsesTo s bofLine l s' p' ∧
          fillMemStatVM s' = .error PErr.eof)
    ∧ (∀ s e, parseAll s = .error e →
        e ≠ PErr.eof ∧ newSmapsModel s = ([], some e) ∧
        ∃ l s' p', ParsesTo s bofLine l s' p' ∧
          parseMemStat s' p' = .error e)
    ∧ parseAll (hdr1 ++ blockTrunc) =
        .error (.fillWrap [] (.readLine "Size: 4 kB\n".data))
    ∧ newSmapsModel (hdr1 ++ blockTrunc) =
        ([], some (.fillWrap [] (.readLine "Size: 4 kB\n".data))) := by
  have hspec := fun s : List Char =>
    parseLoopF_spec s.length s bofLine [] (s.length + 1) rfl (by omega)
  refine ⟨fillMemStatVM_eof_iff, ?_, ?_, by decide, by decide⟩
  · intro s l
    constructor
    · intro h
      obtain ⟨l', s', p', rfl, hpt, hrs⟩ := ((hspec s).1 l).mp h
      exact ⟨s', p', by simpa using hpt, (fillMemStatVM_eof_iff s').mpr hrs⟩
    · rintro ⟨s', p', hpt, heof⟩
      exact ((hspec s).1 l).mpr
        ⟨l, s', p', by simp, hpt, (fillMemStatVM_eof_iff s').mp heof⟩
  · intro s e h
    obtain ⟨hne, l', s', p', hpt, hpm⟩ := ((hspec s).2 e).mp h
    refine ⟨hne, ?_, l', s', p', hpt, hpm⟩
    simp [newSmapsModel, h]

/-- Witness for C1: applied to the concrete stream truncated inside the
field block — the parse errors with a non-`eof` error, the returned
record list is empty, and the failure happens at a reachable parse
state. -/
theorem parse_loop_eof_at_record_boundary_witness :
    (PErr.fillWrap [] (.readLine "Size: 4 kB\n".data)) ≠ PErr.eof
    ∧ newSmapsModel (hdr1 ++ blockTrunc) =
        ([], some (.fillWrap [] (.readLine "Size: 4 kB\n".data)))
    ∧ ∃ l s' p', ParsesTo (hdr1 ++ blockTrunc) bofLine l s' p' ∧
        parseMemStat s' p' =
          .error (.fillWrap [] (.readLine "Size: 4 kB\n".data)) := by
  exact parse_loop_eof_at_record_boundary.2.2.1 (hdr1 ++ blockTrunc) _
    (by decide)

end Procfs
